import Mathlib

/-!
Verification of the vast-rag indexing/query pipeline core, shallowly embedded
from the Python sources (src/vast_rag).  Strings are modeled as lists of
characters (`Text`); the external tiktoken tokenizer is a parameter of the
chunker (its `encode`); decoding a list of tokens is concatenation, which is
the round-trip behaviour of the real tokenizer on token-aligned slices.
-/

/-- Python `str`, modeled as a list of characters. -/
abbrev Text := List Char

/-- `a.isPfx b` : `a` is a leading segment of `b` (character-wise). -/
def isPfx : Text → Text → Bool
  | [], _ => true
  | _ :: _, [] => false
  | a :: as, b :: bs => a == b && isPfx as bs

/-- Python's `needle in hay` substring test on strings. -/
def hasSub (needle hay : Text) : Bool :=
  isPfx needle hay ||
    match hay with
    | [] => false
    | _ :: t => hasSub needle t

/-- Whitespace set of Python `str.strip()` (restricted to the common ASCII
whitespace characters; the full Unicode set is an external detail). -/
def isWs (c : Char) : Bool :=
  c == ' ' || c == '\n' || c == '\t' || c == '\r'

/-- Python `str.strip()`: drop leading and trailing whitespace. -/
def stripText (t : Text) : Text :=
  ((t.dropWhile isWs).reverse.dropWhile isWs).reverse

/-- Python `str.lower()` (ASCII case folding; full Unicode is external). -/
def lowerText (t : Text) : Text :=
  t.map Char.toLower

/-- Python dict lookup `d.get(k)` for a dict modeled as an insertion-ordered
association list. -/
def dictLookup {α : Type} (d : List (Text × α)) (k : Text) : Option α :=
  match d with
  | [] => none
  | (k', v) :: rest => if k' = k then some v else dictLookup rest k

/-- Python dict assignment `d[k] = v`: update the value in place when the key
exists (keeping its insertion position), else append as the newest entry. -/
def dictInsert {α : Type} (d : List (Text × α)) (k : Text) (v : α) : List (Text × α) :=
  match d with
  | [] => [(k, v)]
  | (k', w) :: rest =>
    if k' = k then (k', v) :: rest else (k', w) :: dictInsert rest k v

/-- Effective index of a Python slice endpoint `i` into a sequence of length
`len`: negative indices count from the end (clamped at 0), positive ones are
clamped at `len`. -/
def pyIdx (len : Nat) (i : Int) : Nat :=
  if i < 0 then ((len : Int) + i).toNat else min i.toNat len

/-- Python slice `l[a:b]`. -/
def pySlice {α : Type} (l : List α) (a b : Int) : List α :=
  let s := pyIdx l.length a
  let e := pyIdx l.length b
  (l.drop s).take (e - s)

/-- The two fixed document categories (`"vast-data"` / `"general-tech"`). -/
inductive Cat where
  | vastData
  | generalTech
deriving DecidableEq

/-- A `DocumentChunk` (types.py); the Python `metadata` dict keys
`source_file`, `category`, `page_number`, `section` are fields here. -/
structure DocumentChunk where
  text : Text
  sourceFile : Text
  category : Cat
  pageNumber : Option Nat
  sectionLabel : Option Text
  chunkIndex : Nat
deriving DecidableEq

/-- A `ParsedDocument` (types.py): full text, extracted section headers,
optional per-page texts (`metadata["page_texts"]`), format string, and the
name of the source path (`source_path.name`). -/
structure ParsedDocument where
  text : Text
  sections : List Text
  pageTexts : Option (List Text)
  format : Text
  sourceName : Text
deriving DecidableEq

/-- `SemanticChunker` (chunker.py): chunk size and overlap in tokens, plus the
external tokenizer's `encode` (tiktoken `cl100k_base`).  A token decodes to a
piece of text; decoding a slice of tokens concatenates the pieces. -/
structure SemanticChunker where
  chunkSize : Nat
  chunkOverlap : Nat
  tokenize : Text → List Text

/-- `SemanticChunker._find_section`: the first header of `sections` whose text
occurs as a substring of `text`, or `none`. -/
def find_section (text : Text) (sections : List Text) : Option Text :=
  sections.find? (fun s => hasSub s text)

/-- The `while start < len(tokens)` window loop of
`SemanticChunker._chunk_text`, with explicit fuel: `none` means the fuel ran
out with the loop still running (the Python loop does not terminate exactly in
that regime, see `chunk_text_loop_diverges`).  `start` is an `Int` because for
`chunk_overlap > chunk_size` the Python variable goes negative. -/
def chunk_text_loop (ck : SemanticChunker) (tokens : List Text) (src : Text)
    (cat : Cat) (sections : List Text) (page : Option Nat) :
    Nat → Int → Nat → Option (List DocumentChunk)
  | 0, start, _ => if start < (tokens.length : Int) then none else some []
  | fuel + 1, start, idx =>
    if start < (tokens.length : Int) then
      let e : Int := start + (ck.chunkSize : Int)
      let chunkToks := pySlice tokens start e
      let chunkTxt := chunkToks.flatten
      match chunk_text_loop ck tokens src cat sections page fuel
          (e - (ck.chunkOverlap : Int)) (idx + 1) with
      | none => none
      | some rest =>
        some (⟨stripText chunkTxt, src, cat, page,
               find_section chunkTxt sections, idx⟩ :: rest)
    else some []

/-- `SemanticChunker._chunk_text`.  When the token count fits in one chunk the
whole text is returned as chunk 0 with `section = sections[0] if sections
else None`; otherwise the window loop runs (fuel `tokens.length + 1` is ample
whenever the loop terminates at all, see `chunk_text_loop_isSome`). -/
def chunk_text (ck : SemanticChunker) (text src : Text) (cat : Cat)
    (sections : List Text) (page : Option Nat) : Option (List DocumentChunk) :=
  let tokens := ck.tokenize text
  if tokens.length ≤ ck.chunkSize then
    some [⟨text, src, cat, page, sections.head?, 0⟩]
  else
    chunk_text_loop ck tokens src cat sections page (tokens.length + 1) 0 0

/-- The running-counter renumbering of `SemanticChunker._chunk_pdf`
(`chunk.chunk_index = chunk_index; chunk_index += 1`). -/
def renumberFrom (n : Nat) : List DocumentChunk → List DocumentChunk
  | [] => []
  | c :: rest => { c with chunkIndex := n } :: renumberFrom (n + 1) rest

/-- The per-page loop of `SemanticChunker._chunk_pdf` (page numbers from 1),
before the index renumbering. -/
def chunk_pdf_pages (ck : SemanticChunker) (src : Text) (cat : Cat)
    (sections : List Text) : List Text → Nat → Option (List DocumentChunk)
  | [], _ => some []
  | t :: rest, pn =>
    match chunk_text ck t src cat sections (some pn),
        chunk_pdf_pages ck src cat sections rest (pn + 1) with
    | some cs, some others => some (cs ++ others)
    | _, _ => none

/-- `SemanticChunker.chunk_document`: PDFs with `page_texts` metadata are
chunked page by page then renumbered; everything else is chunked as one
stream. -/
def chunk_document (ck : SemanticChunker) (doc : ParsedDocument) (cat : Cat) :
    Option (List DocumentChunk) :=
  if doc.format = ("pdf".toList) ∧ doc.pageTexts.isSome then
    (chunk_pdf_pages ck doc.sourceName cat doc.sections
        (doc.pageTexts.getD []) 1).map (renumberFrom 0)
  else
    chunk_text ck doc.text doc.sourceName cat doc.sections none

/-! ## Configuration (config.py) -/

/-- The validated fields of `Config` (config.py).  `chunk_size` and
`chunk_overlap` are `Int` so pydantic's `ge`/`le` field bounds are
meaningful. -/
structure Config where
  docsPath : Text
  dataPath : Text
  chunkSize : Int
  chunkOverlap : Int
  batchSize : Int
  allowedExtensions : List Text
deriving DecidableEq

/-- `Path.is_absolute()` on POSIX: the path starts with `/`. -/
def isAbsolutePath (p : Text) : Bool :=
  match p with
  | '/' :: _ => true
  | _ => false

/-- Constructing a `Config` (config.py): pydantic validates each field against
its own `ge`/`le` bounds and the `validate_absolute_path` validator.  This
mirrors config.py exactly: there is no cross-field validator relating
`chunk_overlap` to `chunk_size`. -/
def mkConfig (docsPath dataPath : Text) (chunkSize chunkOverlap batchSize : Int)
    (exts : List Text) : Except Text Config :=
  if ¬ isAbsolutePath docsPath then .error ("Path must be absolute".toList)
  else if ¬ isAbsolutePath dataPath then .error ("Path must be absolute".toList)
  else if ¬ (100 ≤ chunkSize ∧ chunkSize ≤ 2000) then
    .error ("chunk_size out of range".toList)
  else if ¬ (0 ≤ chunkOverlap ∧ chunkOverlap ≤ 200) then
    .error ("chunk_overlap out of range".toList)
  else if ¬ (1 ≤ batchSize ∧ batchSize ≤ 128) then
    .error ("batch_size out of range".toList)
  else .ok ⟨docsPath, dataPath, chunkSize, chunkOverlap, batchSize, exts⟩

/-! ## EmbeddingService (core/embeddings.py)

The sentence-transformers model is an external deterministic function
`Text → Vec`; `model.encode` on a list is elementwise application (the
`batch_size` argument only controls internal throughput). -/

/-- An embedding vector (fixed-dimension numeric vector; entries abstract). -/
abbrev Vec := List Int

/-- The embedding cache `self._cache`: a Python dict from exact text to
vector, insertion-ordered. -/
abbrev Cache := List (Text × Vec)

/-- `EmbeddingService._add_to_cache`: when at (or beyond) capacity, delete the
first (oldest-inserted) key, then assign `cache[text] = embedding`.  (With
capacity 0 and an empty cache the Python `next(iter(...))` would raise; that
regime is unreachable for the configured capacities `≥ 1`, where eviction only
ever fires on a nonempty cache.) -/
def add_to_cache (cacheSize : Nat) (cache : Cache) (text : Text) (v : Vec) : Cache :=
  let cache' := if cacheSize ≤ cache.length then cache.tail else cache
  dictInsert cache' text v

/-- `EmbeddingService.encode_text`: cached vector on a hit (no mutation);
otherwise compute via the model and insert.  Returns the vector and the new
cache. -/
def encode_text (model : Text → Vec) (cacheSize : Nat) (cache : Cache)
    (text : Text) : Vec × Cache :=
  match dictLookup cache text with
  | some v => (v, cache)
  | none =>
    let v := model text
    (v, add_to_cache cacheSize cache text v)

/-- Fill the `None` placeholders of the first pass of `encode_batch` with the
newly computed embeddings, in order. -/
def fillPlaceholders : List (Option Vec) → List Vec → List Vec
  | [], _ => []
  | some v :: rest, news => v :: fillPlaceholders rest news
  | none :: rest, n :: news => n :: fillPlaceholders rest news
  | none :: rest, [] => fillPlaceholders rest []

/-- `EmbeddingService.encode_batch`: first pass resolves cache hits against
the *initial* cache and records placeholders for the misses; the misses are
sent to the model as one batched call; then each new embedding is placed back
at its original position and inserted into the cache in miss order. -/
def encode_batch (model : Text → Vec) (cacheSize : Nat) (cache : Cache)
    (texts : List Text) : List Vec × Cache :=
  let placeholders := texts.map (fun t => dictLookup cache t)
  let uncachedTexts := texts.filter (fun t => (dictLookup cache t).isNone)
  let newEmbeddings := uncachedTexts.map model
  let cache' := (uncachedTexts.zip newEmbeddings).foldl
    (fun acc p => add_to_cache cacheSize acc p.1 p.2) cache
  (fillPlaceholders placeholders newEmbeddings, cache')

/-- Calling `encode_text` once per text in input order, threading the cache. -/
def encode_seq (model : Text → Vec) (cacheSize : Nat) :
    Cache → List Text → List Vec × Cache
  | cache, [] => ([], cache)
  | cache, t :: ts =>
    let r := encode_text model cacheSize cache t
    let rest := encode_seq model cacheSize r.2 ts
    (r.1 :: rest.1, rest.2)

/-- `EmbeddingService.embed_chunks`: batch-encode the chunk texts and zip. -/
def embed_chunks (model : Text → Vec) (cacheSize : Nat) (cache : Cache)
    (chunks : List DocumentChunk) : List (DocumentChunk × Vec) × Cache :=
  let r := encode_batch model cacheSize cache (chunks.map (·.text))
  (chunks.zip r.1, r.2)

/-! ## ChromaDBManager (core/vector_store.py) -/

/-- One persisted record of a collection.  The string id
`f"{source}_chunk_{index}"` is modeled as the pair `(idSource, idIndex)`:
the format is injective in these two components (the tail after the last
`"_chunk_"` is the decimal index, which contains no underscore). -/
structure VSRecord where
  idSource : Text
  idIndex : Nat
  sourceFile : Text
  category : Cat
  chunkIndex : Nat
  pageNumber : Option Nat
  sectionLabel : Option Text
  text : Text
  embedding : Vec
deriving DecidableEq

/-- A ChromaDB collection: its records (`count()` is the length). -/
abbrev Collection := List VSRecord

/-- The dual-collection store. -/
structure Store where
  vast : Collection
  general : Collection
deriving DecidableEq

/-- `ChromaDBManager._get_collection`. -/
def get_collection (s : Store) (cat : Cat) : Collection :=
  match cat with
  | .vastData => s.vast
  | .generalTech => s.general

/-- Replace a store's collection for a category. -/
def set_collection (s : Store) (cat : Cat) (c : Collection) : Store :=
  match cat with
  | .vastData => { s with vast := c }
  | .generalTech => { s with general := c }

/-- Chroma `upsert` of one record: overwrite the record with the same id if
present, else add it. -/
def upsertOne (c : Collection) (r : VSRecord) : Collection :=
  if c.any (fun x => x.idSource = r.idSource ∧ x.idIndex = r.idIndex) then
    c.map (fun x =>
      if x.idSource = r.idSource ∧ x.idIndex = r.idIndex then r else x)
  else c ++ [r]

/-- Chroma `upsert` of a batch of records. -/
def upsertMany (c : Collection) (rs : List VSRecord) : Collection :=
  rs.foldl upsertOne c

/-- The record built by `ChromaDBManager._add_to_collection` for one
`(chunk, embedding)` pair: id from source and ordinal, metadata with the
Python truthiness filtering (`if chunk.metadata.get("page_number"):` drops
page 0, `if chunk.metadata.get("section"):` drops an empty header). -/
def mkRecord (cat : Cat) (p : DocumentChunk × Vec) : VSRecord :=
  { idSource := p.1.sourceFile
    idIndex := p.1.chunkIndex
    sourceFile := p.1.sourceFile
    category := cat
    chunkIndex := p.1.chunkIndex
    pageNumber := match p.1.pageNumber with
      | some n => if n ≠ 0 then some n else none
      | none => none
    sectionLabel := match p.1.sectionLabel with
      | some s => if s ≠ [] then some s else none
      | none => none
    text := p.1.text
    embedding := p.2 }

/-- `ChromaDBManager._add_to_collection`. -/
def add_to_collection (s : Store) (pairs : List (DocumentChunk × Vec))
    (cat : Cat) : Store :=
  set_collection s cat (upsertMany (get_collection s cat) (pairs.map (mkRecord cat)))

/-- `ChromaDBManager.add_documents`: group the pairs by chunk category and add
each group to its collection (vast first, then general, as in the code). -/
def add_documents (s : Store) (pairs : List (DocumentChunk × Vec)) : Store :=
  let vastPairs := pairs.filter (fun p => p.1.category = .vastData)
  let generalPairs := pairs.filter (fun p => ¬ p.1.category = .vastData)
  add_to_collection (add_to_collection s vastPairs .vastData) generalPairs .generalTech

/-- `ChromaDBManager.delete_by_source`: collect the ids of the records whose
`source_file` metadata matches, then delete those ids. -/
def delete_by_source (s : Store) (sourceFile : Text) (cat : Cat) : Store :=
  let c := get_collection s cat
  let ids := (c.filter (fun r => r.sourceFile = sourceFile)).map
    (fun r => (r.idSource, r.idIndex))
  set_collection s cat
    (c.filter (fun r => ¬ (r.idSource, r.idIndex) ∈ ids))

/-- Squared L2 distance between two stored vectors (ChromaDB's default
metric; entries abstract integers, so the distance is a nonnegative
integer). -/
def sqDist (a b : Vec) : Int :=
  ((a.zip b).map (fun p => (p.1 - p.2) * (p.1 - p.2))).sum

/-- The score transform of `ChromaDBManager.search`:
`similarity = 1 / (1 + distance)`. -/
def distToScore (d : Int) : ℚ := 1 / (1 + (d : ℚ))

/-- One parsed search result (types.py `SearchResult`). -/
structure SearchResult where
  text : Text
  source : Text
  page : Option Nat
  sectionLabel : Option Text
  score : ℚ
  category : Cat
deriving DecidableEq

/-- Distance-ascending comparison used by the nearest-neighbour query. -/
def distLe (q : Vec) (a b : VSRecord) : Prop :=
  sqDist a.embedding q ≤ sqDist b.embedding q

instance (q : Vec) : DecidableRel (distLe q) := fun a b =>
  inferInstanceAs (Decidable (sqDist a.embedding q ≤ sqDist b.embedding q))

/-- `collection.query(query_embeddings=[q], n_results=n)`: the `n` nearest
stored records by distance, distance-ascending (at most `n`; fewer when the
collection is smaller). -/
def collectionQuery (c : Collection) (q : Vec) (n : Nat) : List VSRecord :=
  (List.insertionSort (distLe q) c).take n

/-- The per-collection result-parsing loop of `ChromaDBManager.search`:
convert each returned record into a `SearchResult` with
`score = 1 / (1 + distance)`, skipping the query entirely when the
collection is empty (`if collection.count() == 0: continue`). -/
def parseCollection (c : Collection) (cat : Cat) (q : Vec) (n : Nat) :
    List SearchResult :=
  if c.length = 0 then []
  else
    (collectionQuery c q n).map (fun r =>
      ⟨r.text, r.sourceFile, r.pageNumber, r.sectionLabel,
       distToScore (sqDist r.embedding q), cat⟩)

/-- Score-descending comparison of `all_results.sort(key=..., reverse=True)`. -/
def scoreGe (a b : SearchResult) : Prop :=
  b.score ≤ a.score

instance : DecidableRel scoreGe := fun a b =>
  inferInstanceAs (Decidable (b.score ≤ a.score))

instance : IsTotal SearchResult scoreGe :=
  ⟨fun a b => le_total b.score a.score⟩

instance : IsTrans SearchResult scoreGe :=
  ⟨fun _ _ _ h h' => le_trans h' h⟩

/-- `ChromaDBManager.search`: query the selected collection, or both when no
category is given (vast first, then general); sort the combined candidates
descending by score (a stable sort, like Python's) and truncate to
`n_results`. -/
def search (s : Store) (q : Vec) (category : Option Cat) (nResults : Nat) :
    List SearchResult :=
  let allResults :=
    match category with
    | some cat => parseCollection (get_collection s cat) cat q nResults
    | none =>
      parseCollection s.vast .vastData q nResults ++
        parseCollection s.general .generalTech q nResults
  (List.insertionSort scoreGe allResults).take nResults

/-! ## FileHashIndex (core/hash_index.py) -/

/-- A file path together with the `pathlib` derived parts the pipeline uses:
`str(path)`, `path.name` and `path.suffix` (path parsing itself is an external
library detail). -/
structure PathName where
  full : Text
  name : Text
  suffix : Text
deriving DecidableEq

/-- The file system visible to one pipeline run: existing paths with their
byte contents. -/
abbrev FileSystem := List (PathName × Text)

/-- Read a file: `some` content when the path exists. -/
def fsRead (fs : FileSystem) (p : PathName) : Option Text :=
  match fs with
  | [] => none
  | (p', c) :: rest => if p' = p then some c else fsRead rest p

/-- `FileHashIndex.compute_hash`: SHA-256 over the file bytes.  The external
cryptographic digest is modeled as an injective function of the content (the
identity); the pipeline only ever compares digests for equality, and
injectivity over-approximates collision-freedom. -/
def compute_hash (content : Text) : Text :=
  content

/-- The in-memory ledger `FileHashIndex._index`: `str(path) → hex digest`. -/
abbrev HashIndex := List (Text × Text)

/-- `FileHashIndex.has_changed`: true when the path is missing from disk,
untracked, or its current digest differs from the stored one. -/
def has_changed (fs : FileSystem) (idx : HashIndex) (p : PathName) : Bool :=
  match fsRead fs p with
  | none => true
  | some content =>
    match dictLookup idx p.full with
    | none => true
    | some stored => ¬ compute_hash content = stored

/-- `FileHashIndex.update_file` (= `add_file`): no-op when the path vanished,
else store the current digest under `str(path)`. -/
def update_file (fs : FileSystem) (idx : HashIndex) (p : PathName) : HashIndex :=
  match fsRead fs p with
  | none => idx
  | some content => dictInsert idx p.full (compute_hash content)

/-! ## DocumentIndexer (indexer.py) -/

/-- The keyword list of `DocumentIndexer.categorize`. -/
def vastKeywords : List Text :=
  ["vast".toList, "vastdata".toList, "vast_data".toList, "vast-data".toList]

/-- `DocumentIndexer.categorize`: case-insensitive keyword match on the path
string selects `vast-data`; everything else is `general-tech`. -/
def categorize (p : PathName) : Cat :=
  if vastKeywords.any (fun k => hasSub k (lowerText p.full)) then .vastData
  else .generalTech

/-- The fixed collaborators of one `DocumentIndexer`: configured extensions
and chunker, the external parser factory (`none` = parser raised, caught at
the orchestrator boundary), the external embedding model, and the embedding
cache capacity. -/
structure PipelineCtx where
  allowedExtensions : List Text
  chunker : SemanticChunker
  parse : PathName → Text → Option ParsedDocument
  model : Text → Vec
  cacheSize : Nat

/-- The mutable state a pipeline run touches: the hash ledger, the dual
vector store, and the embedding cache. -/
structure PipelineState where
  hashIndex : HashIndex
  store : Store
  cache : Cache
deriving DecidableEq

/-- Steps 4–8 of `DocumentIndexer.index_file` after the three guards have
passed: parse, chunk, embed, delete-then-upsert, record hash.  `none`
propagates chunker fuel exhaustion (the regime where the Python loop hangs). -/
def index_file_pipeline (ctx : PipelineCtx) (fs : FileSystem)
    (st : PipelineState) (p : PathName) (content : Text) :
    Option (Bool × PipelineState) :=
  let cat := categorize p
  match ctx.parse p content with
  | none => some (false, st)
  | some doc =>
    match chunk_document ctx.chunker doc cat with
    | none => none
    | some [] => some (false, st)
    | some (c :: cs) =>
      let chunks := c :: cs
      let embedded := embed_chunks ctx.model ctx.cacheSize st.cache chunks
      let store₁ := delete_by_source st.store p.name cat
      let store₂ := add_documents store₁ embedded.1
      some (true,
        { hashIndex := update_file fs st.hashIndex p
          store := store₂
          cache := embedded.2 })

/-- `DocumentIndexer.index_file`: the three short-circuit guards (existence,
allowed extension, unchanged content), then the pipeline. -/
def index_file (ctx : PipelineCtx) (fs : FileSystem) (st : PipelineState)
    (p : PathName) : Option (Bool × PipelineState) :=
  match fsRead fs p with
  | none => some (false, st)
  | some content =>
    if ¬ (lowerText p.suffix) ∈ ctx.allowedExtensions then some (false, st)
    else if ¬ has_changed fs st.hashIndex p then some (false, st)
    else index_file_pipeline ctx fs st p content

/-- All values of the embedding cache are outputs of the model on their key
(the only way entries are ever created). -/
def cacheCoherent (model : Text → Vec) (cache : Cache) : Prop :=
  ∀ p ∈ cache, p.2 = model p.1

/-- The chunk list one `index_file` run computes for a path: read, parse,
chunk (`none` when any of those steps fails). -/
def pipeline_chunks (ctx : PipelineCtx) (fs : FileSystem) (p : PathName) :
    Option (List DocumentChunk) :=
  match fsRead fs p with
  | none => none
  | some content =>
    match ctx.parse p content with
    | none => none
    | some doc => chunk_document ctx.chunker doc (categorize p)

/-- A concrete stand-in tokenizer for witnesses and counterexamples: every
character is one token (so decoding concatenates back to the text). -/
def charTokenizer : Text → List Text :=
  fun t => t.map (fun c => [c])

/-- A concrete stand-in embedding model for witnesses: the text length as a
one-dimensional vector. -/
def lenModel : Text → Vec :=
  fun t => [(t.length : Int)]

/-- A concrete path fixture: `/docs/a.txt`. -/
def pW : PathName :=
  ⟨"/docs/a.txt".toList, "a.txt".toList, ".txt".toList⟩

/-- A concrete one-file file system fixture. -/
def fsW : FileSystem :=
  [(pW, "hello".toList)]

/-- A concrete pipeline context fixture: plain-text parser stamping the
file's own name, `charTokenizer`, `lenModel`. -/
def ctxW : PipelineCtx :=
  { allowedExtensions := [".txt".toList]
    chunker := ⟨500, 50, charTokenizer⟩
    parse := fun p content => some ⟨content, [], none, "text".toList, p.name⟩
    model := lenModel
    cacheSize := 1000 }

/-- The empty pipeline state fixture. -/
def st0W : PipelineState :=
  ⟨[], ⟨[], []⟩, []⟩

/-- The record `index_file` writes for `fsW`'s one file. -/
def recW : VSRecord :=
  ⟨"a.txt".toList, 0, "a.txt".toList, .generalTech, 0, none, none,
    "hello".toList, [5]⟩

/-- The pipeline state after indexing `fsW`'s one file from `st0W`. -/
def st1W : PipelineState :=
  ⟨[("/docs/a.txt".toList, "hello".toList)], ⟨[], [recW]⟩,
    [("hello".toList, [5])]⟩

/-- A state holding two stale records for the same source (as if a longer
version of the file had been indexed earlier). -/
def stOldW : PipelineState :=
  ⟨[], ⟨[], [⟨"a.txt".toList, 0, "a.txt".toList, .generalTech, 0, none, none,
      "old0".toList, [4]⟩,
    ⟨"a.txt".toList, 1, "a.txt".toList, .generalTech, 1, none, none,
      "old1".toList, [4]⟩]⟩, []⟩

/-- A context whose parser yields a PDF document with an empty page list. -/
def ctxPdfEmptyW : PipelineCtx :=
  { allowedExtensions := [".txt".toList]
    chunker := ⟨500, 50, charTokenizer⟩
    parse := fun p content => some ⟨content, [], some [], "pdf".toList, p.name⟩
    model := lenModel
    cacheSize := 1000 }

/-- A two-page PDF fixture with one token per page. -/
def pdfDocW : ParsedDocument :=
  ⟨"ab".toList, [], some ["a".toList, "b".toList], "pdf".toList,
    "f.pdf".toList⟩

/-- The chunks the chunker produces for `pdfDocW`. -/
def pdfChunksW : List DocumentChunk :=
  [⟨"a".toList, "f.pdf".toList, .generalTech, some 1, none, 0⟩,
   ⟨"b".toList, "f.pdf".toList, .generalTech, some 2, none, 1⟩]

/-- A PDF fixture with an empty page list. -/
def pdfEmptyW : ParsedDocument :=
  ⟨"x".toList, [], some [], "pdf".toList, "f.pdf".toList⟩

/-- The chunks of the windowed path on the 7-token text `abcdefg` with
`chunk_size = 3`, `chunk_overlap = 1`, headers `["cd"]`. -/
def chunksABC : List DocumentChunk :=
  [⟨"abc".toList, "f".toList, .generalTech, none, none, 0⟩,
   ⟨"cde".toList, "f".toList, .generalTech, none, some ("cd".toList), 1⟩,
   ⟨"efg".toList, "f".toList, .generalTech, none, none, 2⟩,
   ⟨"g".toList, "f".toList, .generalTech, none, none, 3⟩]

/-! ## Chunker lemmas -/

/-- With `chunk_overlap < chunk_size` every loop iteration advances `start`
by `chunk_size - chunk_overlap ≥ 1`, so fuel at least `len(tokens) - start`
suffices: the window loop terminates. -/
theorem chunk_text_loop_isSome (ck : SemanticChunker) (tokens : List Text)
    (src : Text) (cat : Cat) (sections : List Text) (page : Option Nat)
    (h : ck.chunkOverlap < ck.chunkSize) :
    ∀ (fuel : Nat) (start : Int) (idx : Nat),
      (tokens.length : Int) - start ≤ fuel →
      (chunk_text_loop ck tokens src cat sections page fuel start idx).isSome := by
  intro fuel
  induction fuel with
  | zero =>
    intro start idx hle
    simp only [chunk_text_loop]
    rw [if_neg (by omega)]
    simp
  | succ n ih =>
    intro start idx hle
    simp only [chunk_text_loop]
    split
    · rename_i hlt
      have hrec := ih (start + (ck.chunkSize : Int) - (ck.chunkOverlap : Int))
        (idx + 1) (by omega)
      obtain ⟨rest, hrest⟩ := Option.isSome_iff_exists.mp hrec
      rw [hrest]
      simp
    · simp

/-- The chunk ordinals produced by the window loop starting at counter `idx`
are consecutive: `idx, idx+1, ...`. -/
theorem chunk_text_loop_indices (ck : SemanticChunker) (tokens : List Text)
    (src : Text) (cat : Cat) (sections : List Text) (page : Option Nat) :
    ∀ (fuel : Nat) (start : Int) (idx : Nat) (l : List DocumentChunk),
      chunk_text_loop ck tokens src cat sections page fuel start idx = some l →
      l.map (·.chunkIndex) = List.range' idx l.length := by
  intro fuel
  induction fuel with
  | zero =>
    intro start idx l h
    simp only [chunk_text_loop] at h
    split at h
    · exact absurd h (by simp)
    · cases h
      simp
  | succ n ih =>
    intro start idx l h
    simp only [chunk_text_loop] at h
    split at h
    · split at h
      · exact absurd h (by simp)
      · rename_i rest hrest
        cases h
        have hr := ih _ _ _ hrest
        simp only [List.map_cons, hr, List.length_cons]
        rw [List.range'_succ]
    · cases h
      simp

/-- When the loop is entered with `start < len(tokens)` it emits at least one
chunk. -/
theorem chunk_text_loop_ne_nil (ck : SemanticChunker) (tokens : List Text)
    (src : Text) (cat : Cat) (sections : List Text) (page : Option Nat)
    (fuel : Nat) (start : Int) (idx : Nat) (l : List DocumentChunk)
    (h : chunk_text_loop ck tokens src cat sections page fuel start idx = some l)
    (hlt : start < (tokens.length : Int)) : l ≠ [] := by
  cases fuel with
  | zero =>
    simp only [chunk_text_loop] at h
    rw [if_pos hlt] at h
    exact absurd h (by simp)
  | succ n =>
    simp only [chunk_text_loop] at h
    rw [if_pos hlt] at h
    split at h
    · exact absurd h (by simp)
    · cases h
      simp

/-- Every chunk emitted by the window loop carries the source name, category
and page it was called with, and its text/section come from one decoded raw
window: the stored text is the stripped window and the section label is the
first header found in the *unstripped* window. -/
theorem chunk_text_loop_fields (ck : SemanticChunker) (tokens : List Text)
    (src : Text) (cat : Cat) (sections : List Text) (page : Option Nat) :
    ∀ (fuel : Nat) (start : Int) (idx : Nat) (l : List DocumentChunk),
      chunk_text_loop ck tokens src cat sections page fuel start idx = some l →
      ∀ c ∈ l, c.sourceFile = src ∧ c.category = cat ∧ c.pageNumber = page ∧
        ∃ raw, c.text = stripText raw ∧
          c.sectionLabel = find_section raw sections := by
  intro fuel
  induction fuel with
  | zero =>
    intro start idx l h
    simp only [chunk_text_loop] at h
    split at h
    · exact absurd h (by simp)
    · cases h
      simp
  | succ n ih =>
    intro start idx l h
    simp only [chunk_text_loop] at h
    split at h
    · split at h
      · exact absurd h (by simp)
      · rename_i rest hrest
        cases h
        intro c hc
        rcases List.mem_cons.mp hc with hc | hc
        · subst hc
          exact ⟨rfl, rfl, rfl, _, rfl, rfl⟩
        · exact ih _ _ _ hrest c hc
    · cases h
      simp

/-- The renumbering pass reassigns consecutive ordinals starting at `n`. -/
theorem renumberFrom_map_index :
    ∀ (l : List DocumentChunk) (n : Nat),
      (renumberFrom n l).map (·.chunkIndex) = List.range' n l.length := by
  intro l
  induction l with
  | nil => intro n; simp [renumberFrom]
  | cons c rest ih =>
    intro n
    simp only [renumberFrom, List.map_cons, List.length_cons, ih]
    rw [List.range'_succ]

/-- Renumbering does not change the number of chunks. -/
theorem renumberFrom_length :
    ∀ (l : List DocumentChunk) (n : Nat),
      (renumberFrom n l).length = l.length := by
  intro l
  induction l with
  | nil => intro n; simp [renumberFrom]
  | cons c rest ih => intro n; simp [renumberFrom, ih]

/-- Renumbering changes only the ordinal of each chunk. -/
theorem renumberFrom_mem :
    ∀ (l : List DocumentChunk) (n : Nat) (c : DocumentChunk),
      c ∈ renumberFrom n l →
      ∃ c' ∈ l, c.sourceFile = c'.sourceFile ∧ c.category = c'.category ∧
        c.text = c'.text ∧ c.sectionLabel = c'.sectionLabel ∧
        c.pageNumber = c'.pageNumber := by
  intro l
  induction l with
  | nil => intro n c hc; simp [renumberFrom] at hc
  | cons d rest ih =>
    intro n c hc
    rcases List.mem_cons.mp hc with hc | hc
    · exact ⟨d, List.mem_cons_self _ _, by simp [hc]⟩
    · obtain ⟨c', hc', hfields⟩ := ih (n + 1) c hc
      exact ⟨c', List.mem_cons_of_mem _ hc', hfields⟩

/-- The single-chunk branch of `_chunk_text`: the whole text becomes chunk 0
and the section label is the *first header of the list* (occurring in the
text or not), `none` only when the list is empty. -/
theorem chunk_text_single (ck : SemanticChunker) (text src : Text) (cat : Cat)
    (sections : List Text) (page : Option Nat)
    (h : (ck.tokenize text).length ≤ ck.chunkSize) :
    chunk_text ck text src cat sections page =
      some [⟨text, src, cat, page, sections.head?, 0⟩] := by
  simp only [chunk_text]
  rw [if_pos h]

/-- `_chunk_text` terminates for every input whenever
`chunk_overlap < chunk_size` (the fuel given to the loop is then ample). -/
theorem chunk_text_isSome (ck : SemanticChunker) (text src : Text) (cat : Cat)
    (sections : List Text) (page : Option Nat)
    (h : ck.chunkOverlap < ck.chunkSize) :
    (chunk_text ck text src cat sections page).isSome := by
  simp only [chunk_text]
  split
  · simp
  · exact chunk_text_loop_isSome ck (ck.tokenize text) src cat sections page h
      ((ck.tokenize text).length + 1) 0 0 (by omega)

/-- The ordinals of `_chunk_text` output are exactly `0..N-1` in order. -/
theorem chunk_text_indices (ck : SemanticChunker) (text src : Text) (cat : Cat)
    (sections : List Text) (page : Option Nat) (l : List DocumentChunk)
    (h : chunk_text ck text src cat sections page = some l) :
    l.map (·.chunkIndex) = List.range l.length := by
  simp only [chunk_text] at h
  split at h
  · cases h
    simp [List.range_succ]
  · rw [List.range_eq_range']
    exact chunk_text_loop_indices ck (ck.tokenize text) src cat sections page
      _ _ _ _ h

/-- Every chunk of `_chunk_text` carries the source name and category. -/
theorem chunk_text_fields (ck : SemanticChunker) (text src : Text) (cat : Cat)
    (sections : List Text) (page : Option Nat) (l : List DocumentChunk)
    (h : chunk_text ck text src cat sections page = some l) :
    ∀ c ∈ l, c.sourceFile = src ∧ c.category = cat := by
  simp only [chunk_text] at h
  split at h
  · cases h
    intro c hc
    rcases List.mem_singleton.mp hc with rfl
    exact ⟨rfl, rfl⟩
  · intro c hc
    obtain ⟨h1, h2, _⟩ := chunk_text_loop_fields ck (ck.tokenize text) src cat
      sections page _ _ _ _ h c hc
    exact ⟨h1, h2⟩

/-- When the token count of the stream exceeds `chunk_size` (and the loop
terminates, i.e. `chunk_overlap < chunk_size`), `_chunk_text` emits more than
one chunk. -/
theorem chunk_text_multi (ck : SemanticChunker) (text src : Text) (cat : Cat)
    (sections : List Text) (page : Option Nat)
    (hco : ck.chunkOverlap < ck.chunkSize)
    (hgt : ck.chunkSize < (ck.tokenize text).length) :
    ∃ l, chunk_text ck text src cat sections page = some l ∧ 1 < l.length := by
  obtain ⟨l, hl⟩ := Option.isSome_iff_exists.mp
    (chunk_text_isSome ck text src cat sections page hco)
  refine ⟨l, hl, ?_⟩
  simp only [chunk_text] at hl
  rw [if_neg (by omega)] at hl
  cases hfuel : (ck.tokenize text).length + 1 with
  | zero => omega
  | succ n =>
    rw [hfuel] at hl
    simp only [chunk_text_loop] at hl
    rw [if_pos (by omega)] at hl
    split at hl
    · exact absurd hl (by simp)
    · rename_i rest hrest
      cases hl
      have hne : rest ≠ [] := by
        refine chunk_text_loop_ne_nil ck (ck.tokenize text) src cat sections
          page n _ _ rest hrest ?_
        omega
      simp only [List.length_cons]
      cases rest with
      | nil => exact absurd rfl hne
      | cons r rs => simp

/-- Every chunk of the per-page PDF loop carries the source name and
category. -/
theorem chunk_pdf_pages_fields (ck : SemanticChunker) (src : Text) (cat : Cat)
    (sections : List Text) :
    ∀ (pts : List Text) (pn : Nat) (l : List DocumentChunk),
      chunk_pdf_pages ck src cat sections pts pn = some l →
      ∀ c ∈ l, c.sourceFile = src ∧ c.category = cat := by
  intro pts
  induction pts with
  | nil =>
    intro pn l h
    simp only [chunk_pdf_pages] at h
    cases h
    simp
  | cons t rest ih =>
    intro pn l h
    simp only [chunk_pdf_pages] at h
    split at h
    · rename_i cs others hcs hothers
      cases h
      intro c hc
      rcases List.mem_append.mp hc with hc | hc
      · exact chunk_text_fields ck t src cat sections (some pn) cs hcs c hc
      · exact ih (pn + 1) others hothers c hc
    · exact absurd h (by simp)

/-- Every chunk of `chunk_document` carries the document's source name and
the requested category. -/
theorem chunk_document_fields (ck : SemanticChunker) (doc : ParsedDocument)
    (cat : Cat) (l : List DocumentChunk)
    (h : chunk_document ck doc cat = some l) :
    ∀ c ∈ l, c.sourceFile = doc.sourceName ∧ c.category = cat := by
  simp only [chunk_document] at h
  split at h
  · cases hp : chunk_pdf_pages ck doc.sourceName cat doc.sections
        (doc.pageTexts.getD []) 1 with
    | none => rw [hp] at h; exact absurd h (by simp)
    | some l' =>
      rw [hp] at h
      simp only [Option.map_some'] at h
      cases h
      intro c hc
      obtain ⟨c', hc', h1, h2, _⟩ := renumberFrom_mem l' 0 c hc
      obtain ⟨hs, hcat⟩ := chunk_pdf_pages_fields ck doc.sourceName cat
        doc.sections _ _ _ hp c' hc'
      exact ⟨h1.trans hs, h2.trans hcat⟩
  · exact chunk_text_fields ck doc.text doc.sourceName cat doc.sections none l h

/-- The ordinals of `chunk_document` output are exactly `0..N-1` in order
(for PDFs the renumbering pass enforces this across pages). -/
theorem chunk_document_indices (ck : SemanticChunker) (doc : ParsedDocument)
    (cat : Cat) (l : List DocumentChunk)
    (h : chunk_document ck doc cat = some l) :
    l.map (·.chunkIndex) = List.range l.length := by
  simp only [chunk_document] at h
  split at h
  · cases hp : chunk_pdf_pages ck doc.sourceName cat doc.sections
        (doc.pageTexts.getD []) 1 with
    | none => rw [hp] at h; exact absurd h (by simp)
    | some l' =>
      rw [hp] at h
      simp only [Option.map_some'] at h
      cases h
      rw [renumberFrom_map_index, renumberFrom_length, List.range_eq_range']
  · exact chunk_text_indices ck doc.text doc.sourceName cat doc.sections none l h

/-- The ordinals of `chunk_document` output are distinct. -/
theorem chunk_document_indices_nodup (ck : SemanticChunker)
    (doc : ParsedDocument) (cat : Cat) (l : List DocumentChunk)
    (h : chunk_document ck doc cat = some l) :
    (l.map (·.chunkIndex)).Nodup := by
  rw [chunk_document_indices ck doc cat l h]
  exact List.nodup_range _

/-! ## Dict and cache lemmas -/

/-- Looking up the key just assigned returns the assigned value. -/
theorem dictLookup_dictInsert_self {α : Type} (d : List (Text × α)) (k : Text)
    (v : α) : dictLookup (dictInsert d k v) k = some v := by
  induction d with
  | nil => simp [dictInsert, dictLookup]
  | cons p rest ih =>
    obtain ⟨k', w⟩ := p
    simp only [dictInsert]
    by_cases hk : k' = k
    · simp [dictLookup, hk]
    · simp [dictLookup, hk, ih]

/-- A successful lookup returns the value of an entry of the dict. -/
theorem dictLookup_mem {α : Type} (d : List (Text × α)) (k : Text) (v : α)
    (h : dictLookup d k = some v) : (k, v) ∈ d := by
  induction d with
  | nil => simp [dictLookup] at h
  | cons p rest ih =>
    obtain ⟨k', w⟩ := p
    simp only [dictLookup] at h
    split at h
    · rename_i hk
      cases h
      subst hk
      exact List.mem_cons_self _ _
    · exact List.mem_cons_of_mem _ (ih h)

/-- Assigning a key absent from the dict appends the new entry. -/
theorem dictInsert_of_notMem {α : Type} (d : List (Text × α)) (k : Text)
    (v : α) (h : dictLookup d k = none) : dictInsert d k v = d ++ [(k, v)] := by
  induction d with
  | nil => simp [dictInsert]
  | cons p rest ih =>
    obtain ⟨k', w⟩ := p
    simp only [dictLookup] at h
    split at h
    · exact absurd h (by simp)
    · rename_i hk
      simp only [dictInsert, if_neg hk, List.cons_append, List.cons.injEq,
        true_and]
      exact ih h

/-- A key absent from a dict is absent from its tail. -/
theorem dictLookup_tail_none {α : Type} (d : List (Text × α)) (k : Text)
    (h : dictLookup d k = none) : dictLookup d.tail k = none := by
  cases d with
  | nil => simp [dictLookup]
  | cons p rest =>
    obtain ⟨k', w⟩ := p
    simp only [dictLookup] at h
    split at h
    · exact absurd h (by simp)
    · exact h

/-- Every entry of `dictInsert d k v` is either the new pair or an old
entry. -/
theorem dictInsert_mem {α : Type} (d : List (Text × α)) (k : Text) (v : α)
    (p : Text × α) (h : p ∈ dictInsert d k v) : p = (k, v) ∨ p ∈ d := by
  induction d with
  | nil => simp [dictInsert] at h; exact Or.inl h
  | cons q rest ih =>
    obtain ⟨k', w⟩ := q
    simp only [dictInsert] at h
    split at h
    · rename_i hk
      subst hk
      rcases List.mem_cons.mp h with h | h
      · exact Or.inl h
      · exact Or.inr (List.mem_cons_of_mem _ h)
    · rcases List.mem_cons.mp h with h | h
      · exact Or.inr (by rw [h]; exact List.mem_cons_self _ _)
      · rcases ih h with h | h
        · exact Or.inl h
        · exact Or.inr (List.mem_cons_of_mem _ h)

/-- Inserting into a dict grows it by at most one entry. -/
theorem dictInsert_length_le {α : Type} (d : List (Text × α)) (k : Text)
    (v : α) : (dictInsert d k v).length ≤ d.length + 1 := by
  induction d with
  | nil => simp [dictInsert]
  | cons q rest ih =>
    obtain ⟨k', w⟩ := q
    simp only [dictInsert]
    split
    · simp
    · simpa using Nat.succ_le_succ ih

/-- `_add_to_cache` preserves the capacity bound (for any configured
capacity `≥ 1`). -/
theorem add_to_cache_length (cacheSize : Nat) (cache : Cache) (t : Text)
    (v : Vec) (hcap : 1 ≤ cacheSize) (hlen : cache.length ≤ cacheSize) :
    (add_to_cache cacheSize cache t v).length ≤ cacheSize := by
  simp only [add_to_cache]
  split
  · rename_i hfull
    have htail : cache.tail.length = cache.length - 1 := List.length_tail _
    have := dictInsert_length_le cache.tail t v
    omega
  · rename_i hnotfull
    have := dictInsert_length_le cache t v
    omega

/-- `_add_to_cache` with a model output preserves cache coherence. -/
theorem add_to_cache_coherent (model : Text → Vec) (cacheSize : Nat)
    (cache : Cache) (t : Text) (h : cacheCoherent model cache) :
    cacheCoherent model (add_to_cache cacheSize cache t (model t)) := by
  intro p hp
  simp only [add_to_cache] at hp
  split at hp
  · rcases dictInsert_mem _ _ _ _ hp with h' | h'
    · rw [h']
    · exact h p (List.tail_subset _ h')
  · rcases dictInsert_mem _ _ _ _ hp with h' | h'
    · rw [h']
    · exact h p h'

/-- A cache hit on a coherent cache returns the model's value. -/
theorem cacheCoherent_lookup (model : Text → Vec) (cache : Cache) (t : Text)
    (v : Vec) (hcoh : cacheCoherent model cache)
    (h : dictLookup cache t = some v) : v = model t :=
  hcoh (t, v) (dictLookup_mem cache t v h)

/-! ## Embedding lemmas -/

/-- Filling the placeholders of the first `encode_batch` pass with the batch
results reconstructs, per position, the cached value on a hit and the model
value on a miss. -/
theorem fillPlaceholders_spec (f : Text → Option Vec) (g : Text → Vec) :
    ∀ ts : List Text,
      fillPlaceholders (ts.map f) ((ts.filter (fun t => (f t).isNone)).map g) =
        ts.map (fun t => match f t with | some v => v | none => g t) := by
  intro ts
  induction ts with
  | nil => simp [fillPlaceholders]
  | cons t rest ih =>
    cases hf : f t with
    | some v =>
      simp only [List.map_cons, List.filter_cons, hf, Option.isSome_some,
        Option.isNone_some, Bool.false_eq_true, if_false, fillPlaceholders]
      rw [ih]
    | none =>
      simp only [List.map_cons, List.filter_cons, hf, Option.isNone_none,
        if_true, fillPlaceholders]
      rw [ih]

/-- `encode_batch` returns one vector per input text. -/
theorem encode_batch_length (model : Text → Vec) (cacheSize : Nat)
    (cache : Cache) (ts : List Text) :
    (encode_batch model cacheSize cache ts).1.length = ts.length := by
  simp only [encode_batch]
  rw [fillPlaceholders_spec (fun t => dictLookup cache t) model ts]
  simp

/-- On a coherent cache, every `encode_batch` result is the model value of
its text. -/
theorem encode_batch_values (model : Text → Vec) (cacheSize : Nat)
    (cache : Cache) (ts : List Text) (hcoh : cacheCoherent model cache) :
    (encode_batch model cacheSize cache ts).1 = ts.map model := by
  simp only [encode_batch]
  rw [fillPlaceholders_spec (fun t => dictLookup cache t) model ts]
  apply List.map_congr_left
  intro t _
  cases hf : dictLookup cache t with
  | some v => exact cacheCoherent_lookup model cache t v hcoh hf
  | none => rfl

/-- On a coherent cache, sequential `encode_text` calls return the model
value of each text, in order. -/
theorem encode_seq_values (model : Text → Vec) (cacheSize : Nat) :
    ∀ (ts : List Text) (cache : Cache), cacheCoherent model cache →
      (encode_seq model cacheSize cache ts).1 = ts.map model := by
  intro ts
  induction ts with
  | nil => intro cache _; simp [encode_seq]
  | cons t rest ih =>
    intro cache hcoh
    simp only [encode_seq, List.map_cons]
    cases hf : dictLookup cache t with
    | some v =>
      simp only [encode_text, hf]
      rw [ih cache hcoh, cacheCoherent_lookup model cache t v hcoh hf]
    | none =>
      simp only [encode_text, hf]
      rw [ih _ (add_to_cache_coherent model cacheSize cache t hcoh)]

/-- The capacity bound survives any sequence of cache insertions. -/
theorem cache_fold_length (cacheSize : Nat) (hcap : 1 ≤ cacheSize) :
    ∀ (inserts : List (Text × Vec)) (c : Cache), c.length ≤ cacheSize →
      (inserts.foldl (fun acc p => add_to_cache cacheSize acc p.1 p.2)
        c).length ≤ cacheSize := by
  intro inserts
  induction inserts with
  | nil => intro c hc; simpa using hc
  | cons p rest ih =>
    intro c hc
    simp only [List.foldl_cons]
    exact ih _ (add_to_cache_length cacheSize c p.1 p.2 hcap hc)

/-- Inserting a fresh key at capacity evicts exactly the oldest-inserted
entry (the dict's first entry) and appends the new pair as newest. -/
theorem add_to_cache_evicts_oldest (cacheSize : Nat) (cache : Cache)
    (t : Text) (v : Vec) (hfull : cache.length = cacheSize)
    (hfresh : dictLookup cache t = none) :
    add_to_cache cacheSize cache t v = cache.tail ++ [(t, v)] := by
  simp only [add_to_cache]
  rw [if_pos (le_of_eq hfull.symm)]
  exact dictInsert_of_notMem _ _ _ (dictLookup_tail_none _ _ hfresh)

/-- A cache hit in `encode_text` returns the cached vector and leaves the
cache untouched: reads never evict. -/
theorem encode_text_hit (model : Text → Vec) (cacheSize : Nat) (cache : Cache)
    (t : Text) (v : Vec) (h : dictLookup cache t = some v) :
    encode_text model cacheSize cache t = (v, cache) := by
  simp [encode_text, h]

/-! ## Vector store lemmas -/

/-- Reading back the collection just written. -/
theorem get_set_collection (s : Store) (cat : Cat) (c : Collection) :
    get_collection (set_collection s cat c) cat = c := by
  cases cat <;> rfl

/-- Writing a collection back unchanged is the identity. -/
theorem set_get_collection (s : Store) (cat : Cat) :
    set_collection s cat (get_collection s cat) = s := by
  cases cat <;> rfl

/-- After `delete_by_source`, no record of the collection carries the deleted
source identity. -/
theorem delete_by_source_clears (s : Store) (src : Text) (cat : Cat) :
    ∀ r ∈ get_collection (delete_by_source s src cat) cat,
      ¬ r.sourceFile = src := by
  intro r hr hsrc
  simp only [delete_by_source, get_set_collection] at hr
  obtain ⟨hmem, hpred⟩ := List.mem_filter.mp hr
  simp only [decide_eq_true_eq] at hpred
  exact hpred (List.mem_map.mpr ⟨r, List.mem_filter.mpr ⟨hmem, by simp [hsrc]⟩, rfl⟩)

/-- `delete_by_source` only removes records. -/
theorem delete_by_source_subset (s : Store) (src : Text) (cat : Cat) :
    ∀ r ∈ get_collection (delete_by_source s src cat) cat,
      r ∈ get_collection s cat := by
  intro r hr
  simp only [delete_by_source, get_set_collection] at hr
  exact (List.mem_filter.mp hr).1

/-- `delete_by_source` leaves the other collection untouched. -/
theorem delete_by_source_other (s : Store) (src : Text) (cat cat' : Cat)
    (h : cat ≠ cat') :
    get_collection (delete_by_source s src cat) cat' = get_collection s cat' := by
  cases cat <;> cases cat' <;> first | exact absurd rfl h | rfl

/-- Upserting a record whose id matches nothing in the collection appends
it. -/
theorem upsertOne_of_fresh (c : Collection) (r : VSRecord)
    (h : ∀ x ∈ c, ¬ (x.idSource = r.idSource ∧ x.idIndex = r.idIndex)) :
    upsertOne c r = c ++ [r] := by
  simp only [upsertOne]
  rw [if_neg]
  intro hany
  simp only [List.any_eq_true, decide_eq_true_eq] at hany
  obtain ⟨x, hx, hp⟩ := hany
  exact h x hx hp

/-- Upserting a batch of records with pairwise-distinct ids, none of which
matches an existing id, appends them in order. -/
theorem upsertMany_of_fresh :
    ∀ (rs : List VSRecord) (c : Collection),
      (∀ r ∈ rs, ∀ x ∈ c, ¬ (x.idSource = r.idSource ∧ x.idIndex = r.idIndex)) →
      rs.Pairwise (fun a b => ¬ (a.idSource = b.idSource ∧ a.idIndex = b.idIndex)) →
      upsertMany c rs = c ++ rs := by
  intro rs
  induction rs with
  | nil => intro c _ _; simp [upsertMany]
  | cons r rest ih =>
    intro c hfresh hpw
    have h1 : upsertOne c r = c ++ [r] :=
      upsertOne_of_fresh c r (hfresh r (List.mem_cons_self _ _))
    have hpw' := List.pairwise_cons.mp hpw
    have h2 : upsertMany (c ++ [r]) rest = (c ++ [r]) ++ rest := by
      refine ih (c ++ [r]) ?_ hpw'.2
      intro r' hr' x hx
      rcases List.mem_append.mp hx with hx | hx
      · exact hfresh r' (List.mem_cons_of_mem _ hr') x hx
      · rcases List.mem_singleton.mp hx with rfl
        intro hid
        exact hpw'.1 r' hr' ⟨hid.1, hid.2⟩
    calc upsertMany c (r :: rest) = upsertMany (upsertOne c r) rest := rfl
      _ = (c ++ [r]) ++ rest := by rw [h1, h2]
      _ = c ++ (r :: rest) := by simp

/-- When every pair belongs to one category, `add_documents` only touches
that category's collection. -/
theorem add_documents_homogeneous (s : Store)
    (pairs : List (DocumentChunk × Vec)) (cat : Cat)
    (hcat : ∀ p ∈ pairs, p.1.category = cat) :
    add_documents s pairs = add_to_collection s pairs cat := by
  cases cat with
  | vastData =>
    have h1 : pairs.filter (fun p => p.1.category = Cat.vastData) = pairs :=
      List.filter_eq_self.mpr (fun p hp => by simp [hcat p hp])
    have h2 : pairs.filter (fun p => ¬ p.1.category = Cat.vastData) = [] :=
      List.filter_eq_nil_iff.mpr (fun p hp => by simp [hcat p hp])
    simp only [add_documents, h1, h2]
    simp [add_to_collection, upsertMany, set_get_collection]
  | generalTech =>
    have h1 : pairs.filter (fun p => p.1.category = Cat.vastData) = [] :=
      List.filter_eq_nil_iff.mpr (fun p hp => by simp [hcat p hp])
    have h2 : pairs.filter (fun p => ¬ p.1.category = Cat.vastData) = pairs :=
      List.filter_eq_self.mpr (fun p hp => by simp [hcat p hp])
    simp only [add_documents, h1, h2]
    simp [add_to_collection, upsertMany, set_get_collection]

/-- Delete-then-upsert for one source: after deleting a source's records and
upserting fresh records that all carry that source identity (with distinct
ordinals), the records of the collection matching the source are exactly the
new ones — never old plus new. -/
theorem replace_source_records (s : Store) (src : Text) (cat : Cat)
    (pairs : List (DocumentChunk × Vec))
    (hInv : ∀ r ∈ get_collection s cat, r.idSource = r.sourceFile)
    (hsrc : ∀ q ∈ pairs, q.1.sourceFile = src)
    (hcat : ∀ q ∈ pairs, q.1.category = cat)
    (hnodup : (pairs.map (fun q => q.1.chunkIndex)).Nodup) :
    (get_collection (add_documents (delete_by_source s src cat) pairs)
        cat).filter (fun r => r.sourceFile = src) =
      pairs.map (mkRecord cat) := by
  rw [add_documents_homogeneous _ _ cat hcat]
  simp only [add_to_collection, get_set_collection]
  set c' := get_collection (delete_by_source s src cat) cat with hc'
  set rs := pairs.map (mkRecord cat) with hrs
  have hidsrc : ∀ r ∈ rs, r.idSource = src := by
    intro r hr
    obtain ⟨q, hq, rfl⟩ := List.mem_map.mp hr
    exact hsrc q hq
  have hsrcfile : ∀ r ∈ rs, r.sourceFile = src := by
    intro r hr
    obtain ⟨q, hq, rfl⟩ := List.mem_map.mp hr
    exact hsrc q hq
  have hfresh : ∀ r ∈ rs, ∀ x ∈ c',
      ¬ (x.idSource = r.idSource ∧ x.idIndex = r.idIndex) := by
    intro r hr x hx hid
    have h1 : ¬ x.sourceFile = src := delete_by_source_clears s src cat x hx
    have h2 : x.idSource = x.sourceFile :=
      hInv x (delete_by_source_subset s src cat x hx)
    rw [← h2, hid.1, hidsrc r hr] at h1
    exact h1 rfl
  have hpw : rs.Pairwise
      (fun a b => ¬ (a.idSource = b.idSource ∧ a.idIndex = b.idIndex)) := by
    have hmapidx : rs.map (fun r => r.idIndex) =
        pairs.map (fun q => q.1.chunkIndex) := by
      rw [hrs, List.map_map]
      rfl
    have hnd : (rs.map (fun r => r.idIndex)).Nodup := by
      rw [hmapidx]; exact hnodup
    have := (List.pairwise_map.mp hnd)
    exact this.imp (fun hne hid => hne hid.2)
  rw [upsertMany_of_fresh rs c' hfresh hpw, List.filter_append]
  have hfc : c'.filter (fun r => r.sourceFile = src) = [] := by
    refine List.filter_eq_nil_iff.mpr ?_
    intro x hx
    simp only [decide_eq_true_eq]
    exact delete_by_source_clears s src cat x hx
  have hfr : rs.filter (fun r => r.sourceFile = src) = rs := by
    refine List.filter_eq_self.mpr ?_
    intro x hx
    simp only [decide_eq_true_eq]
    exact hsrcfile x hx
  rw [hfc, hfr, List.nil_append]

/-! ## Orchestrator lemmas -/

/-- Inversion of a successful `index_file` run: all three guards passed,
parsing and chunking succeeded with a nonempty chunk list, and the final
state is exactly embed + delete + upsert + record-hash applied to the
initial state. -/
theorem index_file_success (ctx : PipelineCtx) (fs : FileSystem)
    (st : PipelineState) (p : PathName) (st' : PipelineState)
    (h : index_file ctx fs st p = some (true, st')) :
    ∃ content doc chunks,
      fsRead fs p = some content ∧
      (lowerText p.suffix) ∈ ctx.allowedExtensions ∧
      has_changed fs st.hashIndex p = true ∧
      ctx.parse p content = some doc ∧
      chunk_document ctx.chunker doc (categorize p) = some chunks ∧
      chunks ≠ [] ∧
      st' = { hashIndex := update_file fs st.hashIndex p
              store := add_documents
                (delete_by_source st.store p.name (categorize p))
                (embed_chunks ctx.model ctx.cacheSize st.cache chunks).1
              cache := (embed_chunks ctx.model ctx.cacheSize st.cache chunks).2 } := by
  cases hr : fsRead fs p with
  | none => simp [index_file, hr] at h
  | some content =>
    simp only [index_file, hr] at h
    by_cases hext : (lowerText p.suffix) ∈ ctx.allowedExtensions
    · rw [if_neg (not_not.mpr hext)] at h
      by_cases hch : has_changed fs st.hashIndex p = true
      · rw [if_neg (not_not.mpr hch)] at h
        cases hp : ctx.parse p content with
        | none => simp [index_file_pipeline, hp] at h
        | some doc =>
          simp only [index_file_pipeline, hp] at h
          cases hcd : chunk_document ctx.chunker doc (categorize p) with
          | none => rw [hcd] at h; simp at h
          | some chunks =>
            rw [hcd] at h
            cases chunks with
            | nil => simp at h
            | cons c cs =>
              simp only [Option.some.injEq, Prod.mk.injEq, true_and] at h
              exact ⟨content, doc, c :: cs, rfl, hext, hch, hp, hcd,
                by simp, h.symm⟩
      · rw [if_pos hch] at h
        simp at h
    · rw [if_pos hext] at h
      simp at h

/-! ## Claim theorems -/

/-- C1: when `index_file` succeeds on a file (returns true), calling it again
with the file unmodified returns false and the entire state — in particular
the record count of both collections — is unchanged: the second call performs
no mutation (it short-circuits at the hash gate). -/
theorem C1_index_file_idempotent (ctx : PipelineCtx) (fs : FileSystem)
    (st st' : PipelineState) (p : PathName)
    (h : index_file ctx fs st p = some (true, st')) :
    index_file ctx fs st' p = some (false, st') := by
  obtain ⟨content, doc, chunks, hr, hext, hch, hp, hcd, hne, hst⟩ :=
    index_file_success ctx fs st p st' h
  have hhash : st'.hashIndex =
      dictInsert st.hashIndex p.full (compute_hash content) := by
    rw [hst]
    simp [update_file, hr]
  have hch' : has_changed fs st'.hashIndex p = false := by
    simp [has_changed, hr, hhash, dictLookup_dictInsert_self]
  simp only [index_file, hr]
  rw [if_neg (not_not.mpr hext), if_pos (by simp [hch'])]

/-- C2: any successful `index_file` run leaves the records of the target
collection whose source identity matches the file equal to exactly the new
chunk records — the count equals the new chunk count, never old plus new —
because `delete_by_source` removes the prior records before the upsert.
Hypotheses: the stored records' id source matches their metadata source (true
of every record the pipeline ever writes), and the external parser stamps the
parsed document with the file's own name (true of every parser in the
repository). -/
theorem C2_reindex_replaces (ctx : PipelineCtx) (fs : FileSystem)
    (st st' : PipelineState) (p : PathName)
    (h : index_file ctx fs st p = some (true, st'))
    (hInv : ∀ r ∈ get_collection st.store (categorize p),
      r.idSource = r.sourceFile)
    (hname : ∀ content doc, ctx.parse p content = some doc →
      doc.sourceName = p.name) :
    ∃ chunks, pipeline_chunks ctx fs p = some chunks ∧ chunks ≠ [] ∧
      ((get_collection st'.store (categorize p)).filter
        (fun r => r.sourceFile = p.name)).length = chunks.length := by
  obtain ⟨content, doc, chunks, hr, hext, hch, hp, hcd, hne, hst⟩ :=
    index_file_success ctx fs st p st' h
  refine ⟨chunks, by simp [pipeline_chunks, hr, hp, hcd], hne, ?_⟩
  rw [hst]
  have hfield := chunk_document_fields ctx.chunker doc (categorize p) chunks hcd
  have hvlen : (encode_batch ctx.model ctx.cacheSize st.cache
      (chunks.map (·.text))).1.length = chunks.length := by
    rw [encode_batch_length, List.length_map]
  have hmemzip : ∀ q ∈ (embed_chunks ctx.model ctx.cacheSize st.cache chunks).1,
      q.1 ∈ chunks := by
    intro q hq
    obtain ⟨qc, qv⟩ := q
    simp only [embed_chunks] at hq
    exact (List.of_mem_zip hq).1
  have hsrc : ∀ q ∈ (embed_chunks ctx.model ctx.cacheSize st.cache chunks).1,
      q.1.sourceFile = p.name := by
    intro q hq
    rw [(hfield q.1 (hmemzip q hq)).1]
    exact hname content doc hp
  have hcat : ∀ q ∈ (embed_chunks ctx.model ctx.cacheSize st.cache chunks).1,
      q.1.category = categorize p :=
    fun q hq => (hfield q.1 (hmemzip q hq)).2
  have hfst : ((embed_chunks ctx.model ctx.cacheSize st.cache chunks).1).map
      Prod.fst = chunks := by
    simp only [embed_chunks]
    exact List.map_fst_zip _ _ (le_of_eq hvlen.symm)
  have hnodup : (((embed_chunks ctx.model ctx.cacheSize st.cache chunks).1).map
      (fun q => q.1.chunkIndex)).Nodup := by
    have heq : ((embed_chunks ctx.model ctx.cacheSize st.cache chunks).1).map
        (fun q => q.1.chunkIndex) = chunks.map (·.chunkIndex) := by
      rw [show (fun (q : DocumentChunk × Vec) => q.1.chunkIndex) =
        (fun c : DocumentChunk => c.chunkIndex) ∘ Prod.fst from rfl]
      rw [← List.map_map, hfst]
    rw [heq]
    exact chunk_document_indices_nodup ctx.chunker doc (categorize p) chunks hcd
  rw [replace_source_records st.store p.name (categorize p) _ hInv hsrc hcat
    hnodup]
  rw [List.length_map]
  calc ((embed_chunks ctx.model ctx.cacheSize st.cache chunks).1).length
      = (((embed_chunks ctx.model ctx.cacheSize st.cache chunks).1).map
          Prod.fst).length := by rw [List.length_map]
    _ = chunks.length := by rw [hfst]

/-- With `chunk_overlap ≥ chunk_size` the window start never increases, so
once inside the loop it never reaches the end of the token stream: the loop
runs forever (`none` for every fuel). -/
theorem chunk_text_loop_diverges (ck : SemanticChunker) (tokens : List Text)
    (src : Text) (cat : Cat) (sections : List Text) (page : Option Nat)
    (hco : ck.chunkSize ≤ ck.chunkOverlap) :
    ∀ (fuel : Nat) (start : Int) (idx : Nat), start < (tokens.length : Int) →
      chunk_text_loop ck tokens src cat sections page fuel start idx = none := by
  intro fuel
  induction fuel with
  | zero =>
    intro start idx hlt
    simp [chunk_text_loop, hlt]
  | succ n ih =>
    intro start idx hlt
    simp only [chunk_text_loop]
    rw [if_pos hlt, ih (start + (ck.chunkSize : Int) - (ck.chunkOverlap : Int))
      (idx + 1) (by omega)]

/-- C3: contrary to the claim, `Config` construction accepts
`chunk_overlap ≥ chunk_size` whenever each field is inside its own range
(config.py has per-field bounds and a path validator but no cross-field
validator), and the mistake then surfaces only at chunk time, where the
window loop never terminates (here: `chunk_size = 100`,
`chunk_overlap = 150`, a 101-token document). -/
theorem C3_config_accepts_overlap_ge_size :
    mkConfig ("/docs".toList) ("/data".toList) 100 150 32 [] =
      .ok ⟨"/docs".toList, "/data".toList, 100, 150, 32, []⟩ ∧
    (∀ fuel idx,
      chunk_text_loop ⟨100, 150, charTokenizer⟩
        (charTokenizer (List.replicate 101 'a')) ("doc.txt".toList)
        .generalTech [] none fuel 0 idx = none) ∧
    chunk_text ⟨100, 150, charTokenizer⟩ (List.replicate 101 'a')
      ("doc.txt".toList) .generalTech [] none = none := by
  refine ⟨by rfl, ?_, ?_⟩
  · intro fuel idx
    apply chunk_text_loop_diverges _ _ _ _ _ _ (by decide)
    simp [charTokenizer]
  · simp only [chunk_text]
    rw [if_neg (by simp [charTokenizer])]
    apply chunk_text_loop_diverges _ _ _ _ _ _ (by decide)
    simp [charTokenizer]

/-- C4 counterexample: a document that fits in a single chunk whose one
header does *not* occur in the text.  The claim requires `section = none`;
the code returns `sections[0]` unconditionally on this path. -/
theorem C4_section_attribution_counterexample :
    chunk_text ⟨500, 50, charTokenizer⟩ ("ab".toList) ("f.md".toList)
        .generalTech ["XY".toList] none =
      some [⟨"ab".toList, "f.md".toList, .generalTech, none,
        some ("XY".toList), 0⟩] ∧
    hasSub ("XY".toList) ("ab".toList) = false := by
  exact ⟨by decide, by decide⟩

/-- C4 amended: only chunks of the *windowed* (multi-chunk) path get their
section by first-matching-substring search — over the decoded window before
whitespace trimming; a document that fits in a single chunk gets the first
header of the document's header list (or `none` when the list is empty)
whether or not it occurs in the text.  `find_section` itself returns the
first header occurring as a substring, and `none` when no header occurs. -/
theorem C4_section_attribution_amended :
    (∀ (ck : SemanticChunker) (text src : Text) (cat : Cat)
        (sections : List Text) (page : Option Nat),
      (ck.tokenize text).length ≤ ck.chunkSize →
      chunk_text ck text src cat sections page =
        some [⟨text, src, cat, page, sections.head?, 0⟩]) ∧
    (∀ (ck : SemanticChunker) (text src : Text) (cat : Cat)
        (sections : List Text) (page : Option Nat) (l : List DocumentChunk),
      ck.chunkSize < (ck.tokenize text).length →
      chunk_text ck text src cat sections page = some l →
      ∀ c ∈ l, ∃ raw, c.text = stripText raw ∧
        c.sectionLabel = find_section raw sections) ∧
    (∀ (t : Text) (sections : List Text) (s : Text),
      find_section t sections = some s → hasSub s t = true) ∧
    (∀ (t : Text) (sections : List Text),
      (∀ s ∈ sections, ¬ hasSub s t = true) → find_section t sections = none) := by
  refine ⟨chunk_text_single, ?_, ?_, ?_⟩
  · intro ck text src cat sections page l hgt h c hc
    simp only [chunk_text] at h
    rw [if_neg (by omega)] at h
    obtain ⟨_, _, _, raw, hraw⟩ :=
      chunk_text_loop_fields ck (ck.tokenize text) src cat sections page
        _ _ _ l h c hc
    exact ⟨raw, hraw⟩
  · intro t sections s h
    simp only [find_section] at h
    simpa using List.find?_some h
  · intro t sections h
    simp only [find_section]
    exact List.find?_eq_none.mpr h

/-- C5 counterexample: a two-page PDF whose total token count (2) is far
below `chunk_size` (100) still produces two chunks — one per page — while the
claim requires exactly one chunk for any document with token count
≤ `chunk_size`. -/
theorem C5_chunk_coverage_counterexample :
    (charTokenizer ("ab".toList)).length ≤ 100 ∧
    (chunk_document ⟨100, 10, charTokenizer⟩
        ⟨"ab".toList, [], some ["a".toList, "b".toList], "pdf".toList,
          "f.pdf".toList⟩ .generalTech).map List.length = some 2 := by
  exact ⟨by decide, by decide⟩

/-- C5 amended: the one-vs-many chunk-count rule holds per token *stream* —
the whole text for non-paginated documents, each page for paginated PDFs —
and the ordinal invariant holds for every document: `chunk_index` values are
exactly `0..N-1` in list order, with no gaps or repeats. -/
theorem C5_chunk_coverage_amended :
    (∀ (ck : SemanticChunker) (text src : Text) (cat : Cat)
        (sections : List Text) (page : Option Nat),
      (ck.tokenize text).length ≤ ck.chunkSize →
      ∃ l, chunk_text ck text src cat sections page = some l ∧
        l.length = 1) ∧
    (∀ (ck : SemanticChunker) (text src : Text) (cat : Cat)
        (sections : List Text) (page : Option Nat),
      ck.chunkOverlap < ck.chunkSize →
      ck.chunkSize < (ck.tokenize text).length →
      ∃ l, chunk_text ck text src cat sections page = some l ∧
        1 < l.length) ∧
    (∀ (ck : SemanticChunker) (doc : ParsedDocument) (cat : Cat)
        (l : List DocumentChunk),
      chunk_document ck doc cat = some l →
      l.map (·.chunkIndex) = List.range l.length) := by
  refine ⟨?_, ?_, chunk_document_indices⟩
  · intro ck text src cat sections page h
    exact ⟨_, chunk_text_single ck text src cat sections page h, rfl⟩
  · intro ck text src cat sections page hco hgt
    exact chunk_text_multi ck text src cat sections page hco hgt

/-- C6 counterexample: a document with empty text produces *one* chunk (with
empty text), not zero — the single-chunk branch fires because
`len(tokens) = 0 ≤ chunk_size`. -/
theorem C6_empty_document_counterexample :
    chunk_document ⟨500, 50, charTokenizer⟩
        ⟨[], [], none, "text".toList, "f.txt".toList⟩ .generalTech =
      some [⟨[], "f.txt".toList, .generalTech, none, none, 0⟩] ∧
    (chunk_document ⟨500, 50, charTokenizer⟩
        ⟨[], [], none, "text".toList, "f.txt".toList⟩ .generalTech).map
      List.length = some 1 := by
  exact ⟨by decide, by decide⟩

/-- C6 amended: an empty text yields exactly one chunk whose text is empty
(for any tokenizer that maps the empty text to no tokens); zero chunks arise
only for a PDF whose page list is empty; and the orchestrator treats a
zero-chunk result as a pipeline failure — `index_file` returns not-indexed
and leaves the hash ledger, the vector store and the cache untouched. -/
theorem C6_empty_document_amended :
    (∀ (ck : SemanticChunker) (src : Text) (cat : Cat)
        (sections : List Text) (page : Option Nat),
      ck.tokenize [] = [] →
      chunk_text ck [] src cat sections page =
        some [⟨[], src, cat, page, sections.head?, 0⟩]) ∧
    (∀ (ck : SemanticChunker) (doc : ParsedDocument) (cat : Cat),
      doc.format = ("pdf".toList) → doc.pageTexts = some [] →
      chunk_document ck doc cat = some []) ∧
    (∀ (ctx : PipelineCtx) (fs : FileSystem) (st : PipelineState)
        (p : PathName) (content : Text) (doc : ParsedDocument),
      fsRead fs p = some content →
      (lowerText p.suffix) ∈ ctx.allowedExtensions →
      has_changed fs st.hashIndex p = true →
      ctx.parse p content = some doc →
      chunk_document ctx.chunker doc (categorize p) = some [] →
      index_file ctx fs st p = some (false, st)) := by
  refine ⟨?_, ?_, ?_⟩
  · intro ck src cat sections page htok
    apply chunk_text_single
    rw [htok]
    simp
  · intro ck doc cat hfmt hpages
    simp [chunk_document, hfmt, hpages, chunk_pdf_pages, renumberFrom]
  · intro ctx fs st p content doc hr hext hch hp hcd
    simp only [index_file, hr]
    rw [if_neg (not_not.mpr hext), if_neg (not_not.mpr hch)]
    simp [index_file_pipeline, hp, hcd]

/-- Each collection independently contributes up to `n` candidates: the
per-collection candidate list has length `min n count`. -/
theorem parseCollection_length (c : Collection) (cat : Cat) (q : Vec)
    (n : Nat) : (parseCollection c cat q n).length = min n c.length := by
  simp only [parseCollection]
  split
  · rename_i hz
    simp [hz]
  · simp only [collectionQuery, List.length_map, List.length_take,
      List.length_insertionSort]

/-- C7: with no category filter, `search` requests up to `topK` results from
each of the two collections independently, sorts the combined candidate list
descending by score (a permutation of the two contributions) and truncates to
`topK` — so the result is globally score-ordered, and its length is
`min topK (min topK |vast| + min topK |general|)`: one collection's
per-collection cap cannot starve the merge. -/
theorem C7_search_merge (s : Store) (q : Vec) (k : Nat) :
    search s q none k =
      (List.insertionSort scoreGe
        (parseCollection s.vast .vastData q k ++
          parseCollection s.general .generalTech q k)).take k ∧
    (List.insertionSort scoreGe
        (parseCollection s.vast .vastData q k ++
          parseCollection s.general .generalTech q k)).Perm
      (parseCollection s.vast .vastData q k ++
        parseCollection s.general .generalTech q k) ∧
    List.Sorted scoreGe (search s q none k) ∧
    (search s q none k).length =
      min k ((min k s.vast.length) + (min k s.general.length)) := by
  refine ⟨rfl, List.perm_insertionSort scoreGe _, ?_, ?_⟩
  · exact List.Pairwise.sublist (List.take_sublist _ _)
      (List.sorted_insertionSort scoreGe _)
  · simp only [search, List.length_take, List.length_insertionSort,
      List.length_append, parseCollection_length]

/-- C8: starting from the same cache state (any state whose entries are model
outputs for their keys — an invariant of every reachable cache),
`encode_batch` returns exactly the vectors that one `encode_text` call per
text, in input order, would return: batching changes only throughput, never
results. -/
theorem C8_batch_single_equivalence (model : Text → Vec) (cacheSize : Nat)
    (cache : Cache) (texts : List Text) (hcoh : cacheCoherent model cache) :
    (encode_batch model cacheSize cache texts).1 =
      (encode_seq model cacheSize cache texts).1 := by
  rw [encode_batch_values model cacheSize cache texts hcoh,
    encode_seq_values model cacheSize texts cache hcoh]

/-- C9: (i) after any sequence of insertions into a cache within its
capacity, the size never exceeds the configured capacity (≥ 1); (ii) an
insertion of a new key at capacity evicts exactly the oldest-inserted entry
(the dict's first entry), regardless of reads — insertion-order FIFO, not
LRU; (iii) a read (`encode_text` cache hit) never mutates the cache, so
eviction happens only on insert. -/
theorem C9_cache_bound_fifo :
    (∀ (cacheSize : Nat) (inserts : List (Text × Vec)) (c : Cache),
      1 ≤ cacheSize → c.length ≤ cacheSize →
      (inserts.foldl (fun acc p => add_to_cache cacheSize acc p.1 p.2)
        c).length ≤ cacheSize) ∧
    (∀ (cacheSize : Nat) (c : Cache) (t : Text) (v : Vec),
      c.length = cacheSize → dictLookup c t = none →
      add_to_cache cacheSize c t v = c.tail ++ [(t, v)]) ∧
    (∀ (model : Text → Vec) (cacheSize : Nat) (c : Cache) (t : Text) (v : Vec),
      dictLookup c t = some v →
      encode_text model cacheSize c t = (v, c)) :=
  ⟨fun cacheSize inserts c h1 h2 => cache_fold_length cacheSize h1 inserts c h2,
   add_to_cache_evicts_oldest, encode_text_hit⟩

/-- C10: `_chunk_text` is total exactly under the precondition
`chunk_overlap < chunk_size`: each loop iteration then advances the window
start by `chunk_size - chunk_overlap ≥ 1` tokens, so the loop reaches the end
of the token stream within the provided fuel for every input text. -/
theorem C10_chunker_termination (ck : SemanticChunker) (text src : Text)
    (cat : Cat) (sections : List Text) (page : Option Nat)
    (h : ck.chunkOverlap < ck.chunkSize) :
    (chunk_text ck text src cat sections page).isSome = true :=
  chunk_text_isSome ck text src cat sections page h

/-! ## Witnesses -/

/-- Witness for C1 at a concrete file: the first call indexes (true), the
second returns false with the state unchanged. -/
theorem C1_witness :
    index_file ctxW fsW st0W pW = some (true, st1W) ∧
    index_file ctxW fsW st1W pW = some (false, st1W) :=
  ⟨by decide, C1_index_file_idempotent ctxW fsW st0W st1W pW (by decide)⟩

/-- Witness for C2 at a concrete re-index: a state holding two stale records
for the source ends up with exactly the one new chunk's record. -/
theorem C2_witness :
    ∃ chunks, pipeline_chunks ctxW fsW pW = some chunks ∧ chunks ≠ [] ∧
      ((get_collection st1W.store (categorize pW)).filter
        (fun r => r.sourceFile = pW.name)).length = chunks.length :=
  C2_reindex_replaces ctxW fsW stOldW st1W pW (by decide) (by decide)
    (fun content doc hp => by
      simp only [ctxW] at hp
      cases hp
      rfl)

/-- Witness for C4 (amended) at concrete inputs: single-chunk label from
`sections[0]`; windowed labels from first-matching-substring on the raw
window; `find_section` positive and negative cases. -/
theorem C4_witness :
    (chunk_text ⟨500, 50, charTokenizer⟩ ("hi".toList) ("f.md".toList)
        .generalTech ["Z".toList] none =
      some [⟨"hi".toList, "f.md".toList, .generalTech, none,
        some ("Z".toList), 0⟩]) ∧
    (∀ c ∈ chunksABC, ∃ raw, c.text = stripText raw ∧
      c.sectionLabel = find_section raw ["cd".toList]) ∧
    hasSub ("cd".toList) ("cde".toList) = true ∧
    find_section ("ab".toList) ["XY".toList] = none :=
  ⟨C4_section_attribution_amended.1 ⟨500, 50, charTokenizer⟩ ("hi".toList)
      ("f.md".toList) .generalTech ["Z".toList] none (by decide),
   C4_section_attribution_amended.2.1 ⟨3, 1, charTokenizer⟩
      ("abcdefg".toList) ("f".toList) .generalTech ["cd".toList] none
      chunksABC (by decide) (by decide),
   C4_section_attribution_amended.2.2.1 ("cde".toList) ["cd".toList]
      ("cd".toList) (by decide),
   C4_section_attribution_amended.2.2.2 ("ab".toList) ["XY".toList]
      (by decide)⟩

/-- Witness for C5 (amended) at concrete inputs: one chunk for a small
stream, several for a large one, dense ordinals for the two-page PDF. -/
theorem C5_witness :
    (∃ l, chunk_text ⟨500, 50, charTokenizer⟩ ("hi".toList) ("f".toList)
        .generalTech [] none = some l ∧ l.length = 1) ∧
    (∃ l, chunk_text ⟨3, 1, charTokenizer⟩ ("abcdefg".toList) ("f".toList)
        .generalTech [] none = some l ∧ 1 < l.length) ∧
    pdfChunksW.map (·.chunkIndex) = List.range pdfChunksW.length :=
  ⟨C5_chunk_coverage_amended.1 ⟨500, 50, charTokenizer⟩ ("hi".toList)
      ("f".toList) .generalTech [] none (by decide),
   C5_chunk_coverage_amended.2.1 ⟨3, 1, charTokenizer⟩ ("abcdefg".toList)
      ("f".toList) .generalTech [] none (by decide) (by decide),
   C5_chunk_coverage_amended.2.2 ⟨100, 10, charTokenizer⟩ pdfDocW
      .generalTech pdfChunksW (by decide)⟩

/-- Witness for C6 (amended) at concrete inputs: one empty chunk for empty
text, zero chunks for an empty-page PDF, and `index_file` returning
not-indexed with the state untouched on a zero-chunk parse. -/
theorem C6_witness :
    (chunk_text ⟨500, 50, charTokenizer⟩ [] ("f".toList) .generalTech []
        none = some [⟨[], "f".toList, .generalTech, none, none, 0⟩]) ∧
    (chunk_document ⟨500, 50, charTokenizer⟩ pdfEmptyW .generalTech =
      some []) ∧
    index_file ctxPdfEmptyW fsW st0W pW = some (false, st0W) :=
  ⟨C6_empty_document_amended.1 ⟨500, 50, charTokenizer⟩ ("f".toList)
      .generalTech [] none (by decide),
   C6_empty_document_amended.2.1 ⟨500, 50, charTokenizer⟩ pdfEmptyW
      .generalTech (by decide) (by decide),
   C6_empty_document_amended.2.2 ctxPdfEmptyW fsW st0W pW ("hello".toList)
      ⟨"hello".toList, [], some [], "pdf".toList, "a.txt".toList⟩
      (by decide) (by decide) (by decide) (by decide) (by decide)⟩

/-- Witness for C8 at a concrete cache and text list (one hit, one miss). -/
theorem C8_witness :
    (encode_batch lenModel 2 [("x".toList, [1])]
        ["x".toList, "y".toList]).1 =
      (encode_seq lenModel 2 [("x".toList, [1])]
        ["x".toList, "y".toList]).1 :=
  C8_batch_single_equivalence lenModel 2 [("x".toList, [1])]
    ["x".toList, "y".toList] (by
      intro q hq
      simp only [List.mem_singleton] at hq
      subst hq
      decide)

/-- Witness for C9 at concrete caches: three inserts into capacity 2 stay
within bound; inserting a third key at capacity drops the oldest entry; a
hit leaves the cache unchanged. -/
theorem C9_witness :
    ((([("a".toList, ([1] : Vec)), ("b".toList, [2]), ("c".toList, [3])]).foldl
      (fun acc p => add_to_cache 2 acc p.1 p.2) ([] : Cache)).length ≤ 2) ∧
    (add_to_cache 2 [("a".toList, [1]), ("b".toList, [2])] ("c".toList) [3] =
      [("a".toList, ([1] : Vec)), ("b".toList, [2])].tail ++
        [(("c".toList : Text), ([3] : Vec))]) ∧
    (encode_text lenModel 2 [("a".toList, [1])] ("a".toList) =
      ([1], [("a".toList, [1])])) :=
  ⟨C9_cache_bound_fifo.1 2 _ [] (by decide) (by decide),
   C9_cache_bound_fifo.2.1 2 [("a".toList, [1]), ("b".toList, [2])]
      ("c".toList) [3] (by decide) (by decide),
   C9_cache_bound_fifo.2.2 lenModel 2 [("a".toList, [1])] ("a".toList) [1]
      (by decide)⟩

/-- Witness for C10 at a concrete chunker and text with
`chunk_overlap < chunk_size`. -/
theorem C10_witness :
    (chunk_text ⟨3, 1, charTokenizer⟩ ("abcdefg".toList) ("f".toList)
      .generalTech [] none).isSome = true :=
  C10_chunker_termination ⟨3, 1, charTokenizer⟩ ("abcdefg".toList)
    ("f".toList) .generalTech [] none (by decide)
